import Mathlib

/-
  Verification of the ChemFST chemical-name index against its specification.

  The repository ships the Python binding layer and its tests; the core
  library (normalizer, FST builder, loader, prefix/substring matchers,
  preload) is a separate compiled extension whose sources are not part of
  the Python tree.  The definitions below therefore model that core from
  the specification (each such definition says so in its doc comment),
  using lists of characters for strings, explicit entry tables for the
  automata, and Except for fallible operations.
-/

set_option maxRecDepth 4000

namespace ChemFST

/-! Normalizer -/

/-- Modelled from the spec: the core's case-folding of a single character
(ASCII uppercase letters map to lowercase, everything else unchanged). -/
def lowerChar (c : Char) : Char :=
  if 65 ≤ c.toNat ∧ c.toNat ≤ 90 then Char.ofNat (c.toNat + 32) else c

/-- Modelled from the spec: whitespace recognized by trimming. -/
def isSpaceChar (c : Char) : Bool :=
  c == ' ' || c == '\t' || c == '\n' || c == '\r'

/-- Modelled from the spec: strip leading whitespace. -/
def trimLeft (l : List Char) : List Char := l.dropWhile isSpaceChar

/-- Modelled from the spec: strip trailing whitespace. -/
def trimRight (l : List Char) : List Char := (l.reverse.dropWhile isSpaceChar).reverse

/-- Modelled from the spec: `normalize` case-folds to a single canonical
case and strips leading/trailing whitespace, producing the MatchKey. -/
def normalize (l : List Char) : List Char := trimRight (trimLeft (l.map lowerChar))

/-! Generic insertion sort used by the builder -/

/-- Insert an element into a list so that elements the comparator puts
earlier stay earlier; used by `sortLt`. -/
def insertLt {α : Type} (lt : α → α → Bool) (a : α) : List α → List α
  | [] => [a]
  | b :: l => if lt a b then a :: b :: l else b :: insertLt lt a l

/-- Modelled from the spec: the builder sorts key streams; an insertion
sort parameterized by a strict comparator. -/
def sortLt {α : Type} (lt : α → α → Bool) : List α → List α
  | [] => []
  | a :: l => insertLt lt a (sortLt lt l)

/-! Lexicographic byte order on MatchKeys -/

/-- Modelled from the spec: strict lexicographic order on keys, the order
in which the primary automaton stores and enumerates them. -/
def lexLt : List Char → List Char → Bool
  | [], [] => false
  | [], _ :: _ => true
  | _ :: _, [] => false
  | a :: as, b :: bs => if a < b then true else if b < a then false else lexLt as bs

/-! Data model and builder -/

/-- Modelled from the spec: the builder's raw (MatchKey, original name)
pairs: one per non-blank input line, keyed by its normalization.  A line
is blank exactly when its normalization is empty. -/
def rawEntries (names : List (List Char)) : List (List Char × List Char) :=
  names.filterMap fun n =>
    if normalize n = [] then none else some (normalize n, n)

/-- Modelled from the spec: deduplication by MatchKey with the first-seen
original name winning; `seen` accumulates the keys already kept. -/
def dedupByKey : List (List Char × List Char) → List (List Char) → List (List Char × List Char)
  | [], _ => []
  | e :: l, seen => if e.1 ∈ seen then dedupByKey l seen else e :: dedupByKey l (e.1 :: seen)

/-- Comparator ordering entries by their MatchKey. -/
def entryLt (a b : List Char × List Char) : Bool := lexLt a.1 b.1

/-- Modelled from the spec: the L nonempty suffixes of a key of length L,
the strings the suffix automaton is built over. -/
def nonemptyTails : List Char → List (List Char)
  | [] => []
  | c :: l => (c :: l) :: nonemptyTails l

/-- Modelled from the spec: all (suffix, id) pairs of a table whose first
entry has id `i`; ids follow the table's sorted order. -/
def suffixPairsFrom : Nat → List (List Char × List Char) → List (List Char × Nat)
  | _, [] => []
  | i, e :: l => (nonemptyTails e.1).map (fun t => (t, i)) ++ suffixPairsFrom (i + 1) l

/-- Comparator ordering (suffix, id) pairs by suffix then id. -/
def pairLt (a b : List Char × Nat) : Bool :=
  lexLt a.1 b.1 || (a.1 == b.1 && Nat.blt a.2 b.2)

/-- Modelled from the spec: the loaded index.  `table` is the name table
in ascending MatchKey order (an entry's id is its position, so the primary
automaton's key-to-id map is the table itself); `sfx` is the suffix
automaton's sorted, deduplicated (suffix, id) key set; `count` is the
header's entry count. -/
structure ChemicalFST where
  table : List (List Char × List Char)
  sfx : List (List Char × Nat)
  count : Nat
deriving DecidableEq

/-- Modelled from the spec: index construction from the raw name list:
normalize, drop blanks, deduplicate by key (first seen wins), sort by key,
assign sequential ids in sorted order, and derive the suffix automaton
from all (suffix, id) pairs, sorted and deduplicated. -/
def buildIndex (names : List (List Char)) : ChemicalFST :=
  let table := sortLt entryLt (dedupByKey (rawEntries names) [])
  { table := table
    sfx := sortLt pairLt (suffixPairsFrom 0 table).dedup
    count := table.length }

/-! Serialized file, loader, and error taxonomy -/

/-- Modelled from the spec: the header magic of the serialized index. -/
def magicBytes : List Char := ['C', 'F', 'S', 'T']

/-- Modelled from the spec: the header format version. -/
def formatVersion : Nat := 1

/-- Modelled from the spec: the serialized single-file index: header
(magic, version) and the payload sections. -/
structure IndexFile where
  magic : List Char
  version : Nat
  index : ChemicalFST
deriving DecidableEq

/-- Modelled from the spec: the error taxonomy of the core. -/
inductive ChemError where
  | notFound
  | formatError
  | buildError
  | ioError
deriving DecidableEq

/-- Modelled from the spec: how the binding layer surfaces core errors to
Python; a missing file becomes FileNotFoundError. -/
inductive PyException where
  | fileNotFoundError
  | valueError
  | osError
deriving DecidableEq

/-- Modelled from the spec: the binding layer's error translation. -/
def toPyException : ChemError → PyException
  | .notFound => .fileNotFoundError
  | .formatError => .valueError
  | .buildError => .valueError
  | .ioError => .osError

/-- Modelled from the spec: `build_fst` reads the input text (a file
system maps a path to its lines, `none` when the path does not exist),
fails with NotFound when the input is missing, and otherwise writes the
serialized index with a valid header. -/
def build_fst (fs : List Char → Option (List (List Char))) (input : List Char) :
    Except ChemError IndexFile :=
  match fs input with
  | none => Except.error ChemError.notFound
  | some lines => Except.ok ⟨magicBytes, formatVersion, buildIndex lines⟩

/-- Modelled from the spec: opening an index validates header magic and
version (FormatError on mismatch, NotFound when the path is missing) and
exposes the read-only handle. -/
def openIndex (fs : List Char → Option IndexFile) (path : List Char) :
    Except ChemError ChemicalFST :=
  match fs path with
  | none => Except.error ChemError.notFound
  | some file =>
      if file.magic = magicBytes ∧ file.version = formatVersion then Except.ok file.index
      else Except.error ChemError.formatError

/-! Query operations -/

/-- Modelled from the spec: `prefix_search` normalizes the query, follows
it through the primary automaton, and enumerates at most `maxResults`
completions in ascending key order (the table's order), resolving each to
its original name; a nonpositive bound yields the empty list. -/
def prefix_search (f : ChemicalFST) (p : List Char) (maxResults : Int) : List (List Char) :=
  if maxResults ≤ 0 then []
  else
    ((f.table.filter fun e => (normalize p).isPrefixOf e.1).map fun e => e.2).take
      maxResults.toNat

/-- Modelled from the spec: the ids hit by running the normalized
substring as a prefix query against the suffix automaton, deduplicated
and put in ascending id order (the spec's ordering policy). -/
def sortedMatchIds (f : ChemicalFST) (q : List Char) : List Nat :=
  sortLt Nat.blt ((f.sfx.filter fun pr => q.isPrefixOf pr.1).map (fun pr => pr.2)).dedup

/-- Modelled from the spec: `substring_search` resolves the first
`maxResults` of the deduplicated, id-ordered hits back to original names
through the name table; a nonpositive bound yields the empty list. -/
def substring_search (f : ChemicalFST) (s : List Char) (maxResults : Int) : List (List Char) :=
  if maxResults ≤ 0 then []
  else
    ((sortedMatchIds f (normalize s)).take maxResults.toNat).filterMap
      fun i => (f.table.get? i).map fun e => e.2

/-- Statement of the spec's observable contract for substring search,
written from the spec's words rather than the algorithm: scan the name
table in ascending id order, keep the names whose key contains the
normalized substring, and return the first `maxResults` of them.  Used to
state the refinement the suffix-automaton algorithm must satisfy. -/
def substringScanSpec (f : ChemicalFST) (s : List Char) (maxResults : Int) : List (List Char) :=
  if maxResults ≤ 0 then []
  else
    ((f.table.filter fun e => decide (normalize s <:+: e.1)).map fun e => e.2).take
      maxResults.toNat

/-- Modelled from the spec: `preload` touches every page of the mapped
region (no observable counterpart in this model, so the handle is
returned unchanged) and returns the total number of indexed entries. -/
def preload (f : ChemicalFST) : ChemicalFST × Nat := (f, f.count)

/-- Repeated application of `preload` to a handle, keeping the handle the
calls operate on. -/
def applyPreloads : Nat → ChemicalFST → ChemicalFST
  | 0, f => f
  | n + 1, f => applyPreloads n (preload f).1

/-- Reference enumeration of the ids whose key contains `q`, walking the
table in ascending id order starting at id `i`; used to relate the
suffix-automaton algorithm to the table scan it must agree with. -/
def matchIdsFrom (q : List Char) : Nat → List (List Char × List Char) → List Nat
  | _, [] => []
  | i, e :: l =>
    if q <:+: e.1 then i :: matchIdsFrom q (i + 1) l else matchIdsFrom q (i + 1) l

/-! Concrete data used by the specification's scenarios -/

/-- The four-name dictionary of the spec's concrete scenario. -/
def demoNames : List (List Char) :=
  [ "acetone".data, "benzene".data, "ethanol".data, "methanol".data]

/-- The index built from the four-name dictionary. -/
def demoIndex : ChemicalFST := buildIndex demoNames

/-- The serialized file produced by building the four-name dictionary. -/
def demoFile : IndexFile := ⟨magicBytes, formatVersion, buildIndex demoNames⟩

/-- A name list whose two entries collide on their normalized key. -/
def dupNames : List (List Char) := [ "Ethanol".data, "ethanol".data]

/-- An index file whose header magic and version are both wrong. -/
def badFile : IndexFile := ⟨[], 0, buildIndex []⟩

/-! Lemmas about the normalizer -/

theorem toNat_ofNat_small {n : Nat} (h : n < 55296) : (Char.ofNat n).toNat = n := by
  simp [Char.ofNat, Nat.isValidChar, h, Char.ofNatAux, Char.toNat, UInt32.toNat,
    BitVec.toNat_ofNatLt]

theorem lowerChar_lowerChar (c : Char) : lowerChar (lowerChar c) = lowerChar c := by
  by_cases h : 65 ≤ c.toNat ∧ c.toNat ≤ 90
  · have h1 : lowerChar c = Char.ofNat (c.toNat + 32) := if_pos h
    have ht : (Char.ofNat (c.toNat + 32)).toNat = c.toNat + 32 :=
      toNat_ofNat_small (by omega)
    rw [h1]
    show (if 65 ≤ (Char.ofNat (c.toNat + 32)).toNat ∧ (Char.ofNat (c.toNat + 32)).toNat ≤ 90
        then Char.ofNat ((Char.ofNat (c.toNat + 32)).toNat + 32)
        else Char.ofNat (c.toNat + 32)) = Char.ofNat (c.toNat + 32)
    rw [if_neg (by rw [ht]; omega)]
  · have h1 : lowerChar c = c := if_neg h
    rw [h1, h1]

theorem lowerChar_fix_of_mem_map {x : Char} {l : List Char}
    (hx : x ∈ l.map lowerChar) : lowerChar x = x := by
  obtain ⟨y, _, rfl⟩ := List.mem_map.mp hx
  exact lowerChar_lowerChar y

theorem trimLeft_isSuffix (l : List Char) : trimLeft l <:+ l :=
  List.dropWhile_suffix _

theorem trimRight_isPrefix (l : List Char) : trimRight l <+: l := by
  have h : trimRight l <+: l.reverse.reverse :=
    ( List.reverse_prefix).mpr (List.dropWhile_suffix _)
  rwa [List.reverse_reverse] at h

theorem mem_of_mem_normalize {x : Char} {l : List Char}
    (h : x ∈ normalize l) : x ∈ l.map lowerChar :=
  (trimLeft_isSuffix _).subset ((trimRight_isPrefix _).subset h)

theorem map_lowerChar_normalize (l : List Char) :
    (normalize l).map lowerChar = normalize l := by
  have h : ∀ x ∈ normalize l, lowerChar x = id x := fun x hx =>
    lowerChar_fix_of_mem_map (mem_of_mem_normalize hx)
  rw [List.map_congr_left h, List.map_id]

theorem dropWhile_dropWhile (p : Char → Bool) :
    ∀ l : List Char, List.dropWhile p (List.dropWhile p l) = List.dropWhile p l
  | [] => rfl
  | a :: l => by
    by_cases h : p a
    · rw [List.dropWhile_cons_of_pos h]
      exact dropWhile_dropWhile p l
    · rw [List.dropWhile_cons_of_neg h, List.dropWhile_cons_of_neg h]

theorem trimRight_trimRight (l : List Char) : trimRight (trimRight l) = trimRight l := by
  unfold trimRight
  rw [List.reverse_reverse, dropWhile_dropWhile]

theorem head_trimLeft_not_space {l : List Char} {c : Char} {r : List Char}
    (h : trimLeft l = c :: r) : isSpaceChar c = false := by
  have hh := List.head?_dropWhile_not isSpaceChar l
  rw [show List.dropWhile isSpaceChar l = trimLeft l from rfl, h] at hh
  exact hh

theorem trimLeft_trimRight_trimLeft (l : List Char) :
    trimLeft (trimRight (trimLeft l)) = trimRight (trimLeft l) := by
  cases htr : trimRight (trimLeft l) with
  | nil => rfl
  | cons c r =>
    have hpfx : trimRight (trimLeft l) <+: trimLeft l := trimRight_isPrefix _
    rw [htr] at hpfx
    obtain ⟨t, ht⟩ := hpfx
    have hc : isSpaceChar c = false :=
      head_trimLeft_not_space (l := l) (r := r ++ t) ht.symm
    show List.dropWhile isSpaceChar (c :: r) = c :: r
    rw [List.dropWhile_cons_of_neg (by rw [hc]; simp)]

theorem normalize_normalize (l : List Char) : normalize (normalize l) = normalize l := by
  show trimRight (trimLeft ((normalize l).map lowerChar)) = normalize l
  rw [map_lowerChar_normalize]
  show trimRight (trimLeft (trimRight (trimLeft (l.map lowerChar)))) = _
  rw [trimLeft_trimRight_trimLeft, trimRight_trimRight]
  rfl

/-! Lemmas about the insertion sort -/

theorem insertLt_perm {α : Type} (lt : α → α → Bool) (a : α) :
    ∀ l : List α, (insertLt lt a l).Perm (a :: l)
  | [] => List.Perm.refl _
  | b :: l => by
    by_cases h : lt a b
    · rw [show insertLt lt a (b :: l) = a :: b :: l from if_pos h]
    · rw [show insertLt lt a (b :: l) = b :: insertLt lt a l from if_neg h]
      exact ((insertLt_perm lt a l).cons b).trans (List.Perm.swap a b l)

theorem sortLt_perm {α : Type} (lt : α → α → Bool) :
    ∀ l : List α, (sortLt lt l).Perm l
  | [] => List.Perm.refl _
  | a :: l => (insertLt_perm lt a (sortLt lt l)).trans ((sortLt_perm lt l).cons a)

theorem mem_sortLt {α : Type} {lt : α → α → Bool} {x : α} {l : List α} :
    x ∈ sortLt lt l ↔ x ∈ l :=
  (sortLt_perm lt l).mem_iff

theorem pairwise_insertLt {α : Type} {lt : α → α → Bool}
    (hasym : ∀ x y, lt x y = true → lt y x = true → False)
    (htr : ∀ x y z, lt x y = true → lt y z = true → lt x z = true) (a : α) :
    ∀ l : List α, List.Pairwise (fun x y => lt y x = false) l →
      List.Pairwise (fun x y => lt y x = false) (insertLt lt a l)
  | [], _ => List.pairwise_cons.mpr ⟨by simp, List.Pairwise.nil⟩
  | b :: l, h => by
    obtain ⟨hb, hl⟩ := List.pairwise_cons.mp h
    by_cases hab : lt a b
    · rw [show insertLt lt a (b :: l) = a :: b :: l from if_pos hab]
      refine List.pairwise_cons.mpr ⟨?_, h⟩
      intro y hy
      rcases List.mem_cons.mp hy with rfl | hyl
      · cases hba : lt y a with
        | false => rfl
        | true => exact (hasym a y hab hba).elim
      · cases hya : lt y a with
        | false => rfl
        | true =>
          have : lt y b = true := htr y a b hya hab
          rw [hb y hyl] at this
          exact Bool.noConfusion this
    · rw [show insertLt lt a (b :: l) = b :: insertLt lt a l from if_neg hab]
      refine List.pairwise_cons.mpr ⟨?_, pairwise_insertLt hasym htr a l hl⟩
      intro y hy
      rcases List.mem_cons.mp ((insertLt_perm lt a l).mem_iff.mp hy) with rfl | hyl
      · exact Bool.eq_false_iff.mpr hab
      · exact hb y hyl

theorem pairwise_sortLt {α : Type} {lt : α → α → Bool}
    (hasym : ∀ x y, lt x y = true → lt y x = true → False)
    (htr : ∀ x y z, lt x y = true → lt y z = true → lt x z = true) :
    ∀ l : List α, List.Pairwise (fun x y => lt y x = false) (sortLt lt l)
  | [] => List.Pairwise.nil
  | a :: l => pairwise_insertLt hasym htr a _ (pairwise_sortLt hasym htr l)

/-! Lemmas about the lexicographic order -/

theorem lexLt_asym : ∀ a b : List Char, lexLt a b = true → lexLt b a = true → False
  | [], [] => by simp [lexLt]
  | [], _ :: _ => by simp [lexLt]
  | _ :: _, [] => by simp [lexLt]
  | x :: xs, y :: ys => by
    intro h1 h2
    simp only [lexLt] at h1 h2
    by_cases hxy : x < y
    · rw [if_neg (asymm hxy), if_pos hxy] at h2
      exact Bool.noConfusion h2
    · by_cases hyx : y < x
      · rw [if_neg hxy, if_pos hyx] at h1
        exact Bool.noConfusion h1
      · rw [if_neg hxy, if_neg hyx] at h1
        rw [if_neg hyx, if_neg hxy] at h2
        exact lexLt_asym xs ys h1 h2

theorem lexLt_trans :
    ∀ a b c : List Char, lexLt a b = true → lexLt b c = true → lexLt a c = true
  | [], [], _ => by simp [lexLt]
  | [], _ :: _, [] => by simp [lexLt]
  | [], _ :: _, _ :: _ => by simp [lexLt]
  | _ :: _, [], _ => by simp [lexLt]
  | _ :: _, _ :: _, [] => by simp [lexLt]
  | x :: xs, y :: ys, z :: zs => by
    intro h1 h2
    simp only [lexLt] at h1 h2 ⊢
    by_cases hxy : x < y
    · by_cases hyz : y < z
      · rw [if_pos (lt_trans hxy hyz)]
      · by_cases hzy : z < y
        · rw [if_neg hyz, if_pos hzy] at h2
          exact Bool.noConfusion h2
        · have hyzeq : y = z := le_antisymm (not_lt.mp hzy) (not_lt.mp hyz)
          rw [if_pos (hyzeq ▸ hxy)]
    · by_cases hyx : y < x
      · rw [if_neg hxy, if_pos hyx] at h1
        exact Bool.noConfusion h1
      · have hxyeq : x = y := le_antisymm (not_lt.mp hyx) (not_lt.mp hxy)
        rw [if_neg hxy, if_neg hyx] at h1
        by_cases hyz : y < z
        · rw [if_pos (hxyeq ▸ hyz)]
        · by_cases hzy : z < y
          · rw [if_neg hyz, if_pos hzy] at h2
            exact Bool.noConfusion h2
          · have hyzeq : y = z := le_antisymm (not_lt.mp hzy) (not_lt.mp hyz)
            rw [if_neg hyz, if_neg hzy] at h2
            have hxz : ¬ x < z := by rw [hxyeq, hyzeq]; exact lt_irrefl z
            have hzx : ¬ z < x := by rw [hxyeq, hyzeq]; exact lt_irrefl z
            rw [if_neg hxz, if_neg hzx]
            exact lexLt_trans xs ys zs h1 h2

theorem lexLt_eq_of_not :
    ∀ a b : List Char, lexLt a b = false → lexLt b a = false → a = b
  | [], [] => fun _ _ => rfl
  | [], _ :: _ => by simp [lexLt]
  | _ :: _, [] => by simp [lexLt]
  | x :: xs, y :: ys => by
    intro h1 h2
    simp only [lexLt] at h1 h2
    by_cases hxy : x < y
    · rw [if_pos hxy] at h1
      exact Bool.noConfusion h1
    · by_cases hyx : y < x
      · rw [if_pos hyx] at h2
        exact Bool.noConfusion h2
      · rw [if_neg hxy, if_neg hyx] at h1
        rw [if_neg hyx, if_neg hxy] at h2
        have hx : x = y := le_antisymm (not_lt.mp hyx) (not_lt.mp hxy)
        have ht : xs = ys := lexLt_eq_of_not xs ys h1 h2
        rw [hx, ht]

theorem lexLt_of_proper_initial :
    ∀ a b : List Char, a <+: b → a ≠ b → lexLt a b = true
  | [], [] => fun _ h => absurd rfl h
  | [], _ :: _ => by simp [lexLt]
  | x :: xs, [] => by
    intro h _
    rw [List.prefix_nil] at h
    exact List.noConfusion h
  | x :: xs, y :: ys => by
    intro h hne
    obtain ⟨rfl, hp⟩ := List.cons_prefix_cons.mp h
    show (if x < x then true else if x < x then false else lexLt xs ys) = true
    rw [if_neg (lt_irrefl x), if_neg (lt_irrefl x)]
    exact lexLt_of_proper_initial xs ys hp fun hh => hne (by rw [hh])

/-! Build invariants -/

theorem mem_dedupByKey_sub :
    ∀ (l : List (List Char × List Char)) (seen : List (List Char)) (e : List Char × List Char),
      e ∈ dedupByKey l seen → e ∈ l
  | [], _, _ => by simp [dedupByKey]
  | f :: l, seen, e => by
    simp only [dedupByKey]
    by_cases h : f.1 ∈ seen
    · rw [if_pos h]
      intro hm
      exact List.mem_cons_of_mem f (mem_dedupByKey_sub l seen e hm)
    · rw [if_neg h]
      intro hm
      rcases List.mem_cons.mp hm with rfl | hm
      · exact List.mem_cons_self _ _
      · exact List.mem_cons_of_mem f (mem_dedupByKey_sub l _ e hm)

theorem rawEntries_spec {names : List (List Char)} {e : List Char × List Char}
    (h : e ∈ rawEntries names) : e.1 = normalize e.2 ∧ e.1 ≠ [] ∧ e.2 ∈ names := by
  obtain ⟨n, hn, he⟩ := List.mem_filterMap.mp h
  by_cases hb : normalize n = []
  · rw [if_pos hb] at he
    exact Option.noConfusion he
  · rw [if_neg hb] at he
    obtain rfl := Option.some.inj he
    exact ⟨rfl, hb, hn⟩

theorem mem_rawEntries_of {names : List (List Char)} {n : List Char}
    (hn : n ∈ names) (hne : normalize n ≠ []) : (normalize n, n) ∈ rawEntries names :=
  List.mem_filterMap.mpr ⟨n, hn, by rw [if_neg hne]⟩

theorem dedupByKey_keys :
    ∀ (l : List (List Char × List Char)) (seen : List (List Char)),
      ((dedupByKey l seen).map Prod.fst).Nodup ∧
        ∀ k ∈ (dedupByKey l seen).map Prod.fst, k ∉ seen
  | [], seen => by simp [dedupByKey]
  | e :: l, seen => by
    simp only [dedupByKey]
    by_cases h : e.1 ∈ seen
    · rw [if_pos h]
      exact dedupByKey_keys l seen
    · rw [if_neg h]
      obtain ⟨hnd, hnin⟩ := dedupByKey_keys l (e.1 :: seen)
      constructor
      · simp only [List.map_cons]
        refine List.nodup_cons.mpr ⟨?_, hnd⟩
        intro hmem
        exact (hnin _ hmem) (List.mem_cons_self _ _)
      · simp only [List.map_cons]
        intro k hk
        rcases List.mem_cons.mp hk with rfl | hk
        · exact h
        · exact fun hs => (hnin k hk) (List.mem_cons_of_mem _ hs)

theorem mem_dedupByKey_of :
    ∀ (l : List (List Char × List Char)) (seen : List (List Char)) (e : List Char × List Char),
      (l.map Prod.fst).Nodup → e ∈ l → e.1 ∉ seen → e ∈ dedupByKey l seen
  | [], _, e => by simp
  | f :: l, seen, e => by
    intro hnd hmem hsn
    simp only [List.map_cons, List.nodup_cons] at hnd
    obtain ⟨hf, hnd⟩ := hnd
    simp only [dedupByKey]
    by_cases h : f.1 ∈ seen
    · rw [if_pos h]
      rcases List.mem_cons.mp hmem with rfl | hmem
      · exact absurd h hsn
      · exact mem_dedupByKey_of l seen e hnd hmem hsn
    · rw [if_neg h]
      rcases List.mem_cons.mp hmem with rfl | hmem
      · exact List.mem_cons_self _ _
      · refine List.mem_cons_of_mem f (mem_dedupByKey_of l _ e hnd hmem ?_)
        intro hks
        rcases List.mem_cons.mp hks with hk | hk
        · exact hf (by rw [← hk]; exact List.mem_map_of_mem Prod.fst hmem)
        · exact hsn hk

theorem buildIndex_table_eq (names : List (List Char)) :
    (buildIndex names).table = sortLt entryLt (dedupByKey (rawEntries names) []) := rfl

theorem buildIndex_sfx_eq (names : List (List Char)) :
    (buildIndex names).sfx =
      sortLt pairLt (suffixPairsFrom 0 (buildIndex names).table).dedup := rfl

theorem buildIndex_count_eq (names : List (List Char)) :
    (buildIndex names).count = (buildIndex names).table.length := rfl

theorem table_sub {names : List (List Char)} {e : List Char × List Char}
    (h : e ∈ (buildIndex names).table) : e ∈ rawEntries names := by
  rw [buildIndex_table_eq, mem_sortLt] at h
  exact mem_dedupByKey_sub _ _ _ h

theorem table_key_norm {names : List (List Char)} {e : List Char × List Char}
    (h : e ∈ (buildIndex names).table) : e.1 = normalize e.2 :=
  (rawEntries_spec (table_sub h)).1

theorem table_key_ne_nil {names : List (List Char)} {e : List Char × List Char}
    (h : e ∈ (buildIndex names).table) : e.1 ≠ [] :=
  (rawEntries_spec (table_sub h)).2.1

theorem table_keys_nodup (names : List (List Char)) :
    ((buildIndex names).table.map Prod.fst).Nodup := by
  have hp : ((buildIndex names).table).Perm (dedupByKey (rawEntries names) []) := by
    rw [buildIndex_table_eq]
    exact sortLt_perm _ _
  exact ((hp.map Prod.fst).nodup_iff).mpr (dedupByKey_keys (rawEntries names) []).1

theorem table_pairwise (names : List (List Char)) :
    ((buildIndex names).table).Pairwise (fun a b => lexLt a.1 b.1 = true) := by
  have h1 : ((buildIndex names).table).Pairwise (fun a b => entryLt b a = false) := by
    rw [buildIndex_table_eq]
    exact pairwise_sortLt (fun x y => lexLt_asym x.1 y.1)
      (fun x y z => lexLt_trans x.1 y.1 z.1) _
  have h2 : ((buildIndex names).table).Pairwise (fun a b => a.1 ≠ b.1) :=
    List.pairwise_map.mp (table_keys_nodup names)
  refine (h1.and h2).imp ?_
  intro a b hab
  cases hl : lexLt a.1 b.1 with
  | true => rfl
  | false => exact absurd (lexLt_eq_of_not a.1 b.1 hl hab.1) hab.2

theorem eq_of_map_nodup {α β : Type} {g : α → β} :
    ∀ {l : List α}, (l.map g).Nodup → ∀ {x y : α}, x ∈ l → y ∈ l → g x = g y → x = y := by
  intro l
  induction l with
  | nil =>
    intro _ x y hx
    exact absurd hx (List.not_mem_nil x)
  | cons a l ih =>
    intro hnd x y hx hy hg
    simp only [List.map_cons, List.nodup_cons] at hnd
    obtain ⟨ha, hnd⟩ := hnd
    rcases List.mem_cons.mp hx with h1 | h1
    · rcases List.mem_cons.mp hy with h2 | h2
      · rw [h1, h2]
      · subst h1
        exact absurd (by rw [hg]; exact List.mem_map_of_mem g h2) ha
    · rcases List.mem_cons.mp hy with h2 | h2
      · subst h2
        exact absurd (by rw [← hg]; exact List.mem_map_of_mem g h1) ha
      · exact ih hnd h1 h2 hg

theorem table_origs_nodup (names : List (List Char)) :
    ((buildIndex names).table.map Prod.snd).Nodup := by
  apply List.pairwise_map.mpr
  refine List.Pairwise.imp_of_mem ?_ (table_pairwise names)
  intro a b ha hb hlex heq
  have h1 := table_key_norm ha
  have h2 := table_key_norm hb
  have hk : a.1 = b.1 := by rw [h1, h2, heq]
  rw [hk] at hlex
  exact lexLt_asym _ _ hlex hlex

/-! Prefix search lemmas -/

theorem prefix_search_pos {f : ChemicalFST} {p : List Char} {k : Int} (hk : ¬ k ≤ 0) :
    prefix_search f p k =
      ((f.table.filter fun e => (normalize p).isPrefixOf e.1).map fun e => e.2).take k.toNat :=
  if_neg hk

theorem filter_head_of_min {α : Type} {R : α → α → Prop}
    (hasR : ∀ x y, R x y → R y x → False) {P : α → Bool} {l : List α} {e : α}
    (hpw : l.Pairwise R) (he : e ∈ l) (hPe : P e = true)
    (hmin : ∀ x ∈ l, P x = true → x ≠ e → R e x) : ∃ t, l.filter P = e :: t := by
  have hmem : e ∈ l.filter P := List.mem_filter.mpr ⟨he, hPe⟩
  have hpwf : (l.filter P).Pairwise R := List.Pairwise.sublist (List.filter_sublist l) hpw
  cases hf : l.filter P with
  | nil =>
    rw [hf] at hmem
    exact absurd hmem (List.not_mem_nil e)
  | cons z t =>
    rw [hf] at hmem hpwf
    rcases List.mem_cons.mp hmem with rfl | hz
    · exact ⟨t, rfl⟩
    · rcases eq_or_ne z e with rfl | hze
      · exact ⟨t, rfl⟩
      · have hzf : z ∈ l.filter P := by rw [hf]; exact List.mem_cons_self _ _
        have hz2 := List.mem_filter.mp hzf
        have hRze : R z e := (List.pairwise_cons.mp hpwf).1 e hz
        have hRez : R e z := hmin z hz2.1 hz2.2 hze
        exact (hasR _ _ hRez hRze).elim

theorem mem_prefix_search_self {names : List (List Char)} {n : List Char} {k : Int}
    (hnd : ((rawEntries names).map Prod.fst).Nodup) (hn : n ∈ names)
    (hne : normalize n ≠ []) (hk : 1 ≤ k) :
    n ∈ prefix_search (buildIndex names) (normalize n) k := by
  have htab : (normalize n, n) ∈ (buildIndex names).table := by
    rw [buildIndex_table_eq, mem_sortLt]
    exact mem_dedupByKey_of _ [] _ hnd (mem_rawEntries_of hn hne) (List.not_mem_nil _)
  have hfilter : ∃ t,
      ((buildIndex names).table.filter fun e =>
        (normalize (normalize n)).isPrefixOf e.1) = (normalize n, n) :: t := by
    rw [normalize_normalize]
    refine filter_head_of_min (fun x y hx hy => lexLt_asym _ _ hx hy)
      (table_pairwise names) htab (List.isPrefixOf_iff_prefix.mpr (List.prefix_refl _)) ?_
    intro x hx hPx hxe
    have hpfx : normalize n <+: x.1 := List.isPrefixOf_iff_prefix.mp hPx
    have hxne : normalize n ≠ x.1 := by
      intro hkeq
      exact hxe (eq_of_map_nodup (table_keys_nodup names) hx htab hkeq.symm)
    exact lexLt_of_proper_initial _ _ hpfx hxne
  obtain ⟨t, ht⟩ := hfilter
  rw [prefix_search_pos (by omega), ht]
  obtain ⟨m, hm⟩ : ∃ m, k.toNat = m + 1 := ⟨k.toNat - 1, by omega⟩
  rw [List.map_cons, hm, List.take_succ_cons]
  exact List.mem_cons_self _ _

theorem prefix_search_no_match {f : ChemicalFST} {p : List Char} {k : Int}
    (h : ∀ e ∈ f.table, ¬ (normalize p <+: e.1)) : prefix_search f p k = [] := by
  by_cases hk : k ≤ 0
  · exact if_pos hk
  · rw [prefix_search_pos hk]
    have hnil : (f.table.filter fun e => (normalize p).isPrefixOf e.1) = [] :=
      List.filter_eq_nil_iff.mpr fun e he hP => h e he (List.isPrefixOf_iff_prefix.mp hP)
    rw [hnil]
    simp

theorem mem_prefix_search_matches {f : ChemicalFST} {p r : List Char} {k : Int}
    (h : r ∈ prefix_search f p k) :
    ∃ e ∈ f.table, e.2 = r ∧ normalize p <+: e.1 := by
  by_cases hk : k ≤ 0
  · rw [show prefix_search f p k = [] from if_pos hk] at h
    exact absurd h (List.not_mem_nil r)
  · rw [prefix_search_pos hk] at h
    have h2 := (List.take_sublist _ _).subset h
    obtain ⟨e, he, rfl⟩ := List.mem_map.mp h2
    have h3 := List.mem_filter.mp he
    exact ⟨e, h3.1, rfl, List.isPrefixOf_iff_prefix.mp h3.2⟩

/-! Substring search lemmas -/

theorem mem_nonemptyTails :
    ∀ (w t : List Char), t ∈ nonemptyTails w ↔ t ≠ [] ∧ t <:+ w
  | [], t => by
    simp [nonemptyTails, List.suffix_nil]
  | c :: w, t => by
    simp only [nonemptyTails, List.mem_cons]
    rw [mem_nonemptyTails w t]
    constructor
    · rintro (rfl | ⟨hne, hsfx⟩)
      · exact ⟨List.cons_ne_nil c w, List.suffix_refl _⟩
      · exact ⟨hne, hsfx.trans (List.suffix_cons c w)⟩
    · rintro ⟨hne, hsfx⟩
      rcases List.suffix_cons_iff.mp hsfx with h | h
      · exact Or.inl h
      · exact Or.inr ⟨hne, h⟩

theorem infix_iff_mem_nonemptyTails {q w : List Char} (hw : w ≠ []) :
    q <:+: w ↔ ∃ t ∈ nonemptyTails w, q <+: t := by
  constructor
  · intro h
    obtain ⟨t, hqt, htw⟩ := List.infix_iff_prefix_suffix.mp h
    rcases eq_or_ne t [] with rfl | hne
    · have hq : q = [] := List.prefix_nil.mp hqt
      refine ⟨w, (mem_nonemptyTails w w).mpr ⟨hw, List.suffix_refl _⟩, ?_⟩
      rw [hq]
      exact List.nil_prefix
    · exact ⟨t, (mem_nonemptyTails w t).mpr ⟨hne, htw⟩, hqt⟩
  · rintro ⟨t, ht, hqt⟩
    obtain ⟨-, htw⟩ := (mem_nonemptyTails w t).mp ht
    exact List.infix_iff_prefix_suffix.mpr ⟨t, hqt, htw⟩

theorem mem_suffixPairsFrom :
    ∀ (l : List (List Char × List Char)) (i : Nat) (t : List Char) (j : Nat),
      (t, j) ∈ suffixPairsFrom i l ↔
        i ≤ j ∧ ∃ e, l.get? (j - i) = some e ∧ t ∈ nonemptyTails e.1
  | [], i, t, j => by simp [suffixPairsFrom]
  | e :: l, i, t, j => by
    simp only [suffixPairsFrom, List.mem_append, List.mem_map]
    rw [mem_suffixPairsFrom l (i + 1) t j]
    constructor
    · rintro (⟨t', ht', heq⟩ | ⟨hij, e', hg, ht⟩)
      · obtain ⟨h1, h2⟩ := Prod.mk.injEq .. ▸ heq
        subst h1
        subst h2
        refine ⟨le_refl _, e, ?_, ht'⟩
        rw [Nat.sub_self]
        rfl
      · refine ⟨by omega, e', ?_, ht⟩
        have hji : j - i = (j - (i + 1)) + 1 := by omega
        rw [hji]
        exact hg
    · rintro ⟨hij, e', hg, ht⟩
      rcases eq_or_ne i j with rfl | hne
      · rw [Nat.sub_self] at hg
        have he : e = e' := Option.some.inj hg
        exact Or.inl ⟨t, he ▸ ht, rfl⟩
      · right
        refine ⟨by omega, e', ?_, ht⟩
        have hji : j - i = (j - (i + 1)) + 1 := by omega
        rw [hji] at hg
        exact hg

theorem mem_matchIdsFrom (q : List Char) :
    ∀ (l : List (List Char × List Char)) (i j : Nat),
      j ∈ matchIdsFrom q i l ↔
        i ≤ j ∧ ∃ e, l.get? (j - i) = some e ∧ q <:+: e.1
  | [], i, j => by simp [matchIdsFrom]
  | e :: l, i, j => by
    simp only [matchIdsFrom]
    by_cases h : q <:+: e.1
    · rw [if_pos h]
      simp only [List.mem_cons]
      rw [mem_matchIdsFrom q l (i + 1) j]
      constructor
      · rintro (rfl | ⟨hij, e', hg, he'⟩)
        · exact ⟨le_refl _, e, by rw [Nat.sub_self]; rfl, h⟩
        · refine ⟨by omega, e', ?_, he'⟩
          have hji : j - i = (j - (i + 1)) + 1 := by omega
          rw [hji]
          exact hg
      · rintro ⟨hij, e', hg, he'⟩
        rcases eq_or_ne j i with rfl | hne
        · exact Or.inl rfl
        · right
          refine ⟨by omega, e', ?_, he'⟩
          have hji : j - i = (j - (i + 1)) + 1 := by omega
          rw [hji] at hg
          exact hg
    · rw [if_neg h]
      rw [mem_matchIdsFrom q l (i + 1) j]
      constructor
      · rintro ⟨hij, e', hg, he'⟩
        refine ⟨by omega, e', ?_, he'⟩
        have hji : j - i = (j - (i + 1)) + 1 := by omega
        rw [hji]
        exact hg
      · rintro ⟨hij, e', hg, he'⟩
        rcases eq_or_ne j i with rfl | hne
        · rw [Nat.sub_self] at hg
          have he : e = e' := Option.some.inj hg
          exact absurd (he ▸ he') h
        · refine ⟨by omega, e', ?_, he'⟩
          have hji : j - i = (j - (i + 1)) + 1 := by omega
          rw [hji] at hg
          exact hg

theorem matchIdsFrom_lt (q : List Char) :
    ∀ (l : List (List Char × List Char)) (i : Nat),
      (matchIdsFrom q i l).Pairwise (· < ·)
  | [], _ => List.Pairwise.nil
  | e :: l, i => by
    have hge : ∀ j ∈ matchIdsFrom q (i + 1) l, i < j := by
      intro j hj
      have := ((mem_matchIdsFrom q l (i + 1) j).mp hj).1
      omega
    simp only [matchIdsFrom]
    by_cases h : q <:+: e.1
    · rw [if_pos h]
      exact List.pairwise_cons.mpr ⟨hge, matchIdsFrom_lt q l (i + 1)⟩
    · rw [if_neg h]
      exact matchIdsFrom_lt q l (i + 1)

theorem sortedMatchIds_def (f : ChemicalFST) (q : List Char) :
    sortedMatchIds f q =
      sortLt Nat.blt ((f.sfx.filter fun pr => q.isPrefixOf pr.1).map (fun pr => pr.2)).dedup :=
  rfl

theorem mem_sortedMatchIds {names : List (List Char)} {q : List Char} {j : Nat} :
    j ∈ sortedMatchIds (buildIndex names) q ↔
      ∃ e, (buildIndex names).table.get? j = some e ∧ q <:+: e.1 := by
  rw [sortedMatchIds_def, mem_sortLt, List.mem_dedup]
  constructor
  · intro h
    obtain ⟨pr, hpr, hj⟩ := List.mem_map.mp h
    obtain ⟨hsfx, hP⟩ := List.mem_filter.mp hpr
    rw [buildIndex_sfx_eq, mem_sortLt, List.mem_dedup] at hsfx
    obtain ⟨t, i⟩ := pr
    cases hj
    obtain ⟨-, e, hg, ht⟩ := (mem_suffixPairsFrom _ 0 t i).mp hsfx
    rw [Nat.sub_zero] at hg
    refine ⟨e, hg, ?_⟩
    have hmem : e ∈ (buildIndex names).table := List.get?_mem hg
    refine (infix_iff_mem_nonemptyTails (table_key_ne_nil hmem)).mpr ?_
    exact ⟨t, ht, List.isPrefixOf_iff_prefix.mp hP⟩
  · rintro ⟨e, hg, hinf⟩
    have hmem : e ∈ (buildIndex names).table := List.get?_mem hg
    obtain ⟨t, ht, hq⟩ := (infix_iff_mem_nonemptyTails (table_key_ne_nil hmem)).mp hinf
    refine List.mem_map.mpr ⟨(t, j), List.mem_filter.mpr ⟨?_, ?_⟩, rfl⟩
    · rw [buildIndex_sfx_eq, mem_sortLt, List.mem_dedup]
      refine (mem_suffixPairsFrom _ 0 t j).mpr ⟨Nat.zero_le j, e, ?_, ht⟩
      rw [Nat.sub_zero]
      exact hg
    · exact List.isPrefixOf_iff_prefix.mpr hq

theorem sortedMatchIds_nodup (f : ChemicalFST) (q : List Char) :
    (sortedMatchIds f q).Nodup :=
  ((sortLt_perm Nat.blt _).nodup_iff).mpr (List.nodup_dedup _)

theorem sortedMatchIds_sorted (f : ChemicalFST) (q : List Char) :
    (sortedMatchIds f q).Pairwise (· < ·) := by
  have h1 : (sortedMatchIds f q).Pairwise (fun a b => Nat.blt b a = false) := by
    rw [sortedMatchIds_def]
    refine pairwise_sortLt ?_ ?_ _
    · intro x y hx hy
      rw [Nat.blt_eq] at hx hy
      omega
    · intro x y z hx hy
      rw [Nat.blt_eq] at hx hy ⊢
      omega
  have h2 : (sortedMatchIds f q).Pairwise (· ≠ ·) := sortedMatchIds_nodup f q
  refine (h1.and h2).imp ?_
  intro a b hab
  have hba : ¬ b < a := by
    rw [← Nat.blt_eq, hab.1]
    exact Bool.noConfusion
  have hne : a ≠ b := hab.2
  omega

theorem sortedMatchIds_eq (names : List (List Char)) (q : List Char) :
    sortedMatchIds (buildIndex names) q = matchIdsFrom q 0 (buildIndex names).table := by
  have hnd2 : (matchIdsFrom q 0 (buildIndex names).table).Nodup :=
    (matchIdsFrom_lt q _ 0).imp Nat.ne_of_lt
  apply List.eq_of_perm_of_sorted (r := (· < · : Nat → Nat → Prop))
  · refine (List.perm_ext_iff_of_nodup (sortedMatchIds_nodup _ _) hnd2).mpr ?_
    intro a
    rw [mem_sortedMatchIds, mem_matchIdsFrom]
    constructor
    · rintro ⟨e, hg, hq⟩
      exact ⟨Nat.zero_le a, e, by rw [Nat.sub_zero]; exact hg, hq⟩
    · rintro ⟨-, e, hg, hq⟩
      rw [Nat.sub_zero] at hg
      exact ⟨e, hg, hq⟩
  · exact sortedMatchIds_sorted _ _
  · exact matchIdsFrom_lt q _ 0

theorem matchIdsFrom_filterMap (q : List Char) :
    ∀ (l pre : List (List Char × List Char)),
      (matchIdsFrom q pre.length l).filterMap
          (fun i => ((pre ++ l).get? i).map fun e => e.2)
        = (l.filter fun e => decide (q <:+: e.1)).map fun e => e.2
  | [], pre => by simp [matchIdsFrom]
  | e :: l, pre => by
    have hkey : ((pre ++ e :: l).get? pre.length).map (fun e => e.2) = some e.2 := by
      rw [List.get?_eq_getElem?, List.getElem?_append_right (le_refl _), Nat.sub_self]
      simp
    have happ : pre ++ e :: l = (pre ++ [e]) ++ l := by
      rw [List.append_assoc]
      rfl
    have hlen : pre.length + 1 = (pre ++ [e]).length := by simp
    simp only [matchIdsFrom]
    by_cases h : q <:+: e.1
    · rw [if_pos h,
        @List.filterMap_cons_some _ _ (fun i => ((pre ++ e :: l).get? i).map fun e => e.2)
          pre.length (matchIdsFrom q (pre.length + 1) l) e.2 hkey,
        List.filter_cons_of_pos (by simpa using h), List.map_cons]
      congr 1
      rw [happ, hlen]
      exact matchIdsFrom_filterMap q l (pre ++ [e])
    · rw [if_neg h, List.filter_cons_of_neg (by simpa using h)]
      rw [happ, hlen]
      exact matchIdsFrom_filterMap q l (pre ++ [e])

theorem take_filterMap_of_isSome {α β : Type} (f : α → Option β) :
    ∀ (l : List α) (m : Nat), (∀ x ∈ l, (f x).isSome) →
      (l.take m).filterMap f = (l.filterMap f).take m
  | [], m, _ => by simp
  | a :: l, 0, _ => by simp
  | a :: l, m + 1, h => by
    obtain ⟨b, hb⟩ := Option.isSome_iff_exists.mp (h a (List.mem_cons_self _ _))
    rw [List.take_succ_cons, List.filterMap_cons_some hb,
      List.filterMap_cons_some hb, List.take_succ_cons]
    rw [take_filterMap_of_isSome f l m (fun x hx => h x (List.mem_cons_of_mem a hx))]

theorem substring_search_eq_scan (names : List (List Char)) (s : List Char) (k : Int) :
    substring_search (buildIndex names) s k = substringScanSpec (buildIndex names) s k := by
  by_cases hk : k ≤ 0
  · rw [show substring_search (buildIndex names) s k = [] from if_pos hk,
      show substringScanSpec (buildIndex names) s k = [] from if_pos hk]
  · rw [show substring_search (buildIndex names) s k =
        ((sortedMatchIds (buildIndex names) (normalize s)).take k.toNat).filterMap
          (fun i => ((buildIndex names).table.get? i).map fun e => e.2) from if_neg hk,
      show substringScanSpec (buildIndex names) s k =
        (((buildIndex names).table.filter fun e =>
          decide (normalize s <:+: e.1)).map fun e => e.2).take k.toNat from if_neg hk]
    rw [sortedMatchIds_eq]
    have hsome : ∀ j ∈ matchIdsFrom (normalize s) 0 (buildIndex names).table,
        ((((buildIndex names).table).get? j).map fun e => e.2).isSome := by
      intro j hj
      obtain ⟨-, e, hg, -⟩ := (mem_matchIdsFrom _ _ _ _).mp hj
      rw [Nat.sub_zero] at hg
      rw [hg]
      rfl
    rw [take_filterMap_of_isSome _ _ _ hsome]
    congr 1
    exact matchIdsFrom_filterMap (normalize s) (buildIndex names).table []

theorem substring_search_nodup (names : List (List Char)) (s : List Char) (k : Int) :
    (substring_search (buildIndex names) s k).Nodup := by
  rw [substring_search_eq_scan]
  by_cases hk : k ≤ 0
  · rw [show substringScanSpec (buildIndex names) s k = [] from if_pos hk]
    exact List.nodup_nil
  · rw [show substringScanSpec (buildIndex names) s k =
        (((buildIndex names).table.filter fun e =>
          decide (normalize s <:+: e.1)).map fun e => e.2).take k.toNat from if_neg hk]
    refine List.Nodup.sublist ?_ (table_origs_nodup names)
    exact (List.take_sublist _ _).trans ((List.filter_sublist _).map _)

theorem mem_substring_search_matches {names : List (List Char)} {s r : List Char} {k : Int}
    (h : r ∈ substring_search (buildIndex names) s k) :
    ∃ e ∈ (buildIndex names).table, e.2 = r ∧ normalize s <:+: e.1 := by
  rw [substring_search_eq_scan] at h
  by_cases hk : k ≤ 0
  · rw [show substringScanSpec (buildIndex names) s k = [] from if_pos hk] at h
    exact absurd h (List.not_mem_nil r)
  · rw [show substringScanSpec (buildIndex names) s k =
        (((buildIndex names).table.filter fun e =>
          decide (normalize s <:+: e.1)).map fun e => e.2).take k.toNat from if_neg hk] at h
    have h2 := (List.take_sublist _ _).subset h
    obtain ⟨e, he, rfl⟩ := List.mem_map.mp h2
    have h3 := List.mem_filter.mp he
    exact ⟨e, h3.1, rfl, of_decide_eq_true h3.2⟩

theorem substring_search_no_match {names : List (List Char)} {s : List Char} {k : Int}
    (h : ∀ e ∈ (buildIndex names).table, ¬ (normalize s <:+: e.1)) :
    substring_search (buildIndex names) s k = [] := by
  rw [substring_search_eq_scan]
  by_cases hk : k ≤ 0
  · exact if_pos hk
  · rw [show substringScanSpec (buildIndex names) s k =
        (((buildIndex names).table.filter fun e =>
          decide (normalize s <:+: e.1)).map fun e => e.2).take k.toNat from if_neg hk]
    have hnil : ((buildIndex names).table.filter fun e =>
        decide (normalize s <:+: e.1)) = [] :=
      List.filter_eq_nil_iff.mpr fun e he hd => h e he (of_decide_eq_true hd)
    rw [hnil]
    simp

/-! Preload lemmas -/

theorem applyPreloads_id : ∀ (n : Nat) (f : ChemicalFST), applyPreloads n f = f
  | 0, _ => rfl
  | n + 1, f => applyPreloads_id n f

/-! Claim theorems -/

/-- Claim C1: for the index built from the four-name dictionary
["acetone", "benzene", "ethanol", "methanol"], prefix_search "eth" with
bound 5 returns exactly ["ethanol"], and substring_search "ol" with bound
5 returns exactly the two names "ethanol" and "methanol" in ascending-id
order. -/
theorem demo_scenario_results :
    prefix_search demoIndex "eth".data 5 = [ "ethanol".data] ∧
      substring_search demoIndex "ol".data 5 = [ "ethanol".data, "methanol".data] :=
  ⟨by decide, by decide⟩

/-- Counterexample to claim C2 as stated: for the name list
["Ethanol", "ethanol"] both names normalize to the same key, the builder
keeps the first-seen original, and the input name "ethanol" is not
returned by prefix_search on its own full normalized key even though the
bound 5 exceeds 1 (the search returns ["Ethanol"]). -/
theorem roundtrip_membership_cex :
    "ethanol".data ∈ dupNames ∧ (1 : Int) ≤ 5 ∧
      "ethanol".data ∉ prefix_search (buildIndex dupNames) (normalize "ethanol".data) 5 :=
  ⟨by decide, by decide, by decide⟩

/-- Claim C2 (amended): for every name list whose non-blank entries have
pairwise distinct normalized keys, after build_fst and reopening the
resulting index file, every non-blank input name is returned by
prefix_search on its own full normalized key for any max_results at
least 1. -/
theorem roundtrip_membership
    (names : List (List Char)) (n : List Char) (k : Int)
    (fsT : List Char → Option (List (List Char))) (inputPath outPath : List Char)
    (file : IndexFile)
    (hfs : fsT inputPath = some names)
    (hbuild : build_fst fsT inputPath = Except.ok file)
    (hnd : ((rawEntries names).map Prod.fst).Nodup)
    (hn : n ∈ names) (hne : normalize n ≠ []) (hk : 1 ≤ k) :
    openIndex (fun _ => some file) outPath = Except.ok file.index ∧
      n ∈ prefix_search file.index (normalize n) k := by
  have hfile : file = ⟨magicBytes, formatVersion, buildIndex names⟩ := by
    unfold build_fst at hbuild
    rw [hfs] at hbuild
    exact (Except.ok.inj hbuild).symm
  subst hfile
  exact ⟨rfl, mem_prefix_search_self hnd hn hne hk⟩

theorem roundtrip_membership_witness :
    (fun _ => some demoNames) ([] : List Char) = some demoNames ∧
      build_fst (fun _ => some demoNames) [] = Except.ok demoFile ∧
      ((rawEntries demoNames).map Prod.fst).Nodup ∧
      "ethanol".data ∈ demoNames ∧ normalize "ethanol".data ≠ [] ∧ (1 : Int) ≤ 1 ∧
      (openIndex (fun _ => some demoFile) [] = Except.ok demoFile.index ∧
        "ethanol".data ∈ prefix_search demoFile.index (normalize "ethanol".data) 1) :=
  ⟨rfl, rfl, by decide, by decide, by decide, by decide,
    roundtrip_membership demoNames "ethanol".data 1 (fun _ => some demoNames) [] []
      demoFile rfl rfl (by decide) (by decide) (by decide) (by decide)⟩

/-- Claim C3: every string returned by substring_search contains the
normalized query substring inside its own normalized form, and every
string returned by prefix_search starts with the normalized query prefix
under the same normalization, on any built index, for all queries and
bounds. -/
theorem search_results_match_query (names : List (List Char)) (s p : List Char) (k : Int) :
    (∀ r ∈ substring_search (buildIndex names) s k, normalize s <:+: normalize r) ∧
      ∀ r ∈ prefix_search (buildIndex names) p k, normalize p <+: normalize r := by
  constructor
  · intro r hr
    obtain ⟨e, he, rfl, hinf⟩ := mem_substring_search_matches hr
    rw [← table_key_norm he]
    exact hinf
  · intro r hr
    obtain ⟨e, he, rfl, hpfx⟩ := mem_prefix_search_matches hr
    rw [← table_key_norm he]
    exact hpfx

theorem search_results_match_query_witness :
    ("ethanol".data ∈ substring_search (buildIndex demoNames) "ol".data 5 →
        normalize "ol".data <:+: normalize "ethanol".data) ∧
      ("ethanol".data ∈ prefix_search (buildIndex demoNames) "eth".data 5 →
        normalize "eth".data <+: normalize "ethanol".data) ∧
      "ethanol".data ∈ substring_search (buildIndex demoNames) "ol".data 5 ∧
      "ethanol".data ∈ prefix_search (buildIndex demoNames) "eth".data 5 :=
  ⟨(search_results_match_query demoNames "ol".data "eth".data 5).1 "ethanol".data,
   (search_results_match_query demoNames "ol".data "eth".data 5).2 "ethanol".data,
   by decide, by decide⟩

/-- Claim C4: on any built index, substring_search returns each matching
name exactly once (no duplicates even when the substring occurs at
several positions of a key) and in ascending id order: it coincides with
the take-k of the table scanned in stored (build-time sorted) order. -/
theorem substring_dedup_ascending (names : List (List Char)) (s : List Char) (k : Int) :
    substring_search (buildIndex names) s k = substringScanSpec (buildIndex names) s k ∧
      (substring_search (buildIndex names) s k).Nodup :=
  ⟨substring_search_eq_scan names s k, substring_search_nodup names s k⟩

/-- Claim C5: for every index handle, prefix and substring queries with a
nonnegative bound k return at most k results. -/
theorem max_results_bound (f : ChemicalFST) (p s : List Char) (k : Int) (hk : 0 ≤ k) :
    ((prefix_search f p k).length : Int) ≤ k ∧
      ((substring_search f s k).length : Int) ≤ k := by
  constructor
  · by_cases h : k ≤ 0
    · rw [show prefix_search f p k = [] from if_pos h]
      simpa using hk
    · rw [prefix_search_pos h]
      have h1 := List.length_take_le k.toNat
        ((f.table.filter fun e => (normalize p).isPrefixOf e.1).map fun e => e.2)
      omega
  · by_cases h : k ≤ 0
    · rw [show substring_search f s k = [] from if_pos h]
      simpa using hk
    · rw [show substring_search f s k =
          ((sortedMatchIds f (normalize s)).take k.toNat).filterMap
            (fun i => (f.table.get? i).map fun e => e.2) from if_neg h]
      have h1 := List.length_filterMap_le
        (fun i => (f.table.get? i).map fun e => e.2)
        ((sortedMatchIds f (normalize s)).take k.toNat)
      have h2 := List.length_take_le k.toNat (sortedMatchIds f (normalize s))
      omega

theorem max_results_bound_witness :
    (0 : Int) ≤ 2 ∧ ((prefix_search demoIndex "a".data 2).length : Int) ≤ 2 ∧
      ((substring_search demoIndex "o".data 2).length : Int) ≤ 2 :=
  ⟨by decide, (max_results_bound demoIndex "a".data "o".data 2 (by decide)).1,
    (max_results_bound demoIndex "a".data "o".data 2 (by decide)).2⟩

/-- Claim C6: preload is observationally transparent to queries: after any
number of preload calls on a handle, prefix_search and substring_search
return the identical ordered result lists they returned before. -/
theorem preload_transparent (n : Nat) (f : ChemicalFST) (p s : List Char) (k : Int) :
    prefix_search (applyPreloads n f) p k = prefix_search f p k ∧
      substring_search (applyPreloads n f) s k = substring_search f s k := by
  rw [applyPreloads_id]
  exact ⟨rfl, rfl⟩

/-- Claim C7: preload returns the total number of indexed entries — 4 on
the index built from the four-name dictionary — and repeated calls on the
same handle return the identical count. -/
theorem preload_count_idempotent :
    (preload demoIndex).2 = 4 ∧
      (∀ f : ChemicalFST, (preload (preload f).1).2 = (preload f).2) ∧
      ∀ names : List (List Char),
        (preload (buildIndex names)).2 = (buildIndex names).table.length :=
  ⟨by decide, fun _ => rfl, fun _ => rfl⟩

/-- Claim C8: on a built index, a prefix matching no stored key and a
substring contained in no stored key are not errors: both searches return
the empty list. -/
theorem no_match_returns_empty (names : List (List Char)) (p s : List Char) (k : Int)
    (hp : ∀ e ∈ (buildIndex names).table, ¬ (normalize p <+: e.1))
    (hs : ∀ e ∈ (buildIndex names).table, ¬ (normalize s <:+: e.1)) :
    prefix_search (buildIndex names) p k = [] ∧
      substring_search (buildIndex names) s k = [] :=
  ⟨prefix_search_no_match hp, substring_search_no_match hs⟩

theorem no_match_returns_empty_witness :
    (∀ e ∈ (buildIndex demoNames).table, ¬ (normalize "xyzzyx".data <+: e.1)) ∧
      (∀ e ∈ (buildIndex demoNames).table, ¬ (normalize "xyzzyx".data <:+: e.1)) ∧
      (prefix_search (buildIndex demoNames) "xyzzyx".data 5 = [] ∧
        substring_search (buildIndex demoNames) "xyzzyx".data 5 = []) :=
  ⟨by decide, by decide,
    no_match_returns_empty demoNames "xyzzyx".data "xyzzyx".data 5 (by decide) (by decide)⟩

/-- Claim C9: a missing input path makes build_fst fail with the NotFound
error (surfaced in Python as FileNotFoundError), a missing index path
makes opening fail with NotFound, and a header magic or version mismatch
makes opening fail with FormatError instead. -/
theorem missing_path_errors
    (fsT : List Char → Option (List (List Char))) (fsI : List Char → Option IndexFile)
    (inPath idxPath : List Char) (file : IndexFile) :
    (fsT inPath = none → build_fst fsT inPath = Except.error ChemError.notFound) ∧
      (fsI idxPath = none → openIndex fsI idxPath = Except.error ChemError.notFound) ∧
      (fsI idxPath = some file →
        file.magic ≠ magicBytes ∨ file.version ≠ formatVersion →
        openIndex fsI idxPath = Except.error ChemError.formatError) ∧
      toPyException ChemError.notFound = PyException.fileNotFoundError := by
  refine ⟨?_, ?_, ?_, rfl⟩
  · intro h
    unfold build_fst
    rw [h]
  · intro h
    unfold openIndex
    rw [h]
  · intro h hbad
    unfold openIndex
    rw [h]
    show (if file.magic = magicBytes ∧ file.version = formatVersion then Except.ok file.index
        else Except.error ChemError.formatError) = Except.error ChemError.formatError
    rw [if_neg fun hc => hbad.elim (fun h1 => h1 hc.1) fun h2 => h2 hc.2]

theorem missing_path_errors_witness :
    build_fst (fun _ => none) ([] : List Char) = Except.error ChemError.notFound ∧
      openIndex (fun _ => none) ([] : List Char) = Except.error ChemError.notFound ∧
      openIndex (fun _ => some badFile) ([] : List Char) =
        Except.error ChemError.formatError :=
  ⟨(missing_path_errors (fun _ => none) (fun _ => none) [] [] badFile).1 rfl,
   (missing_path_errors (fun _ => none) (fun _ => none) [] [] badFile).2.1 rfl,
   (missing_path_errors (fun _ => none) (fun _ => some badFile) [] [] badFile).2.2.1 rfl
     (Or.inl (by decide))⟩

/-- Claim C10: for every index handle and every query, a zero or negative
max_results is not an error: both searches return the empty list. -/
theorem nonpositive_bound_empty (f : ChemicalFST) (p s : List Char) (k : Int)
    (hk : k ≤ 0) :
    prefix_search f p k = [] ∧ substring_search f s k = [] :=
  ⟨if_pos hk, if_pos hk⟩

theorem nonpositive_bound_empty_witness :
    ((0 : Int) ≤ 0 ∧ prefix_search demoIndex "eth".data 0 = [] ∧
        substring_search demoIndex "ol".data 0 = []) ∧
      ((-3 : Int) ≤ 0 ∧ prefix_search demoIndex "eth".data (-3) = [] ∧
        substring_search demoIndex "ol".data (-3) = []) :=
  ⟨⟨by decide, nonpositive_bound_empty demoIndex "eth".data "ol".data 0 (by decide)⟩,
   ⟨by decide, nonpositive_bound_empty demoIndex "eth".data "ol".data (-3) (by decide)⟩⟩

end ChemFST
